import Mathlib

/-!
Verification of the go-lexer package (lexer.go, canonical revision: the one
using a `container/list` FIFO, `AcceptRange`/`AcceptRunRange` naming and
explicit invalid-UTF-8 signaling in `Advance`).

Shallow embedding conventions:
  * Go strings are byte sequences, modelled as `List Nat` (each entry a byte).
  * Go `int` offsets are mathematical integers (`Int`); Go `rune` (int32) is `Int`.
  * `utf8.DecodeRuneInString` is modelled byte-for-byte by `decodeRune` below,
    following the Go standard library's first-byte table and accept ranges.
  * The Go `Lexer` struct fields `input`, `start`, `pos`, `width`, `last`,
    `items` are carried in the `Lexer` structure; the `state StateFn` field is
    defunctionalized at the driver level (`Driver`) into an abstract state
    space `σ` with an interpretation function, since Go function values have
    no direct counterpart.  `nil` state is `Option.none`.
  * Go slicing `l.input[l.pos:]` is `l.input.drop l.pos.toNat`; it is only
    relied upon at states with `0 ≤ l.pos` (elsewhere Go would panic).
-/

/-- Go `utf8.RuneError` (U+FFFD). -/
def RuneError : Int := 0xFFFD

/-- Go `const EOF rune = 0x04` from lexer.go. -/
def EOF : Int := 0x04

/-- Size class of a UTF-8 leading byte, per the Go utf8 package's `first`
table: 0 marks an invalid leading byte (0x80..0xC1, 0xF5..0xFF). -/
def utf8Size (b0 : Nat) : Nat :=
  if b0 < 0x80 then 1
  else if b0 < 0xC2 then 0
  else if b0 < 0xE0 then 2
  else if b0 < 0xF0 then 3
  else if b0 < 0xF5 then 4
  else 0

/-- Lower bound for the second byte, per Go's `acceptRanges` (0xE0 and 0xF0
have raised lower bounds to rule out overlong encodings). -/
def acceptLo (b0 : Nat) : Nat :=
  if b0 = 0xE0 then 0xA0 else if b0 = 0xF0 then 0x90 else 0x80

/-- Upper bound for the second byte, per Go's `acceptRanges` (0xED and 0xF4
have lowered upper bounds to rule out surrogates and values above U+10FFFF). -/
def acceptHi (b0 : Nat) : Nat :=
  if b0 = 0xED then 0x9F else if b0 = 0xF4 then 0x8F else 0xBF

/-- Model of Go `utf8.DecodeRuneInString`: decodes the first rune of a byte
sequence, returning the rune and its width.  Malformed input (bad leading
byte, bad continuation byte, truncated sequence) yields `(RuneError, 1)`;
the empty string yields `(RuneError, 0)`. -/
def decodeRune : List Nat → Int × Int
  | [] => (RuneError, 0)
  | b0 :: rest =>
    if b0 < 0x80 then ((b0 : Int), 1)
    else if utf8Size b0 = 0 then (RuneError, 1)
    else
      match rest with
      | [] => (RuneError, 1)
      | b1 :: rest2 =>
        if b1 < acceptLo b0 ∨ acceptHi b0 < b1 then (RuneError, 1)
        else if utf8Size b0 = 2 then
          (((b0 % 0x20) * 0x40 + b1 % 0x40 : Nat), 2)
        else
          match rest2 with
          | [] => (RuneError, 1)
          | b2 :: rest3 =>
            if b2 < 0x80 ∨ 0xBF < b2 then (RuneError, 1)
            else if utf8Size b0 = 3 then
              (((b0 % 0x10) * 0x1000 + (b1 % 0x40) * 0x40 + b2 % 0x40 : Nat), 3)
            else
              match rest3 with
              | [] => (RuneError, 1)
              | b3 :: _ =>
                if b3 < 0x80 ∨ 0xBF < b3 then (RuneError, 1)
                else
                  (((b0 % 0x08) * 0x40000 + (b1 % 0x40) * 0x1000 +
                    (b2 % 0x40) * 0x40 + b3 % 0x40 : Nat), 4)

/-- Go `ItemType` is `uint16`; the reserved kinds are `math.MaxUint16 - iota`. -/
def ItemEOF : Nat := 65535

/-- Reserved error kind, `math.MaxUint16 - 1`. -/
def ItemError : Nat := 65534

/-- Go `type Item struct { Type ItemType; Pos int; Value string }`. -/
structure Item where
  type : Nat
  pos : Int
  value : List Nat
deriving DecidableEq, Repr

/-- The scanning fields of Go's `Lexer` struct plus the item queue
(`items *list.List`, modelled as a `List Item` with `PushBack` appending at
the tail and `Front`/`Remove` taking the head).  The `state StateFn` field
lives in `Driver` below. -/
structure Lexer where
  input : List Nat
  start : Int
  pos : Int
  width : Int
  last : Int
  items : List Item
deriving DecidableEq, Repr

/-- The lexer value built by `New` (Go zero values for the scan fields,
`list.New()` for the queue). -/
def newLexer (input : List Nat) : Lexer :=
  ⟨input, 0, 0, 0, 0, []⟩

/-- Go `l.input[l.pos:]` (meaningful for `0 ≤ l.pos`). -/
def Lexer.suffix (l : Lexer) : List Nat :=
  l.input.drop l.pos.toNat

/-- Go `l.input[l.start:l.pos]` (meaningful for `0 ≤ l.start ≤ l.pos`). -/
def Lexer.current (l : Lexer) : List Nat :=
  (l.input.take l.pos.toNat).drop l.start.toNat

/-- Model of `Lexer.Advance`: at end of input set `width = 0` and return
`(EOF, 0)`; otherwise decode one rune, record it in `last`/`width`, and —
unless the decode signalled invalid UTF-8 as `(RuneError, 1)` — move `pos`
forward by the decoded width. -/
def Lexer.Advance (l : Lexer) : (Int × Int) × Lexer :=
  if (l.input.length : Int) ≤ l.pos then
    ((EOF, 0), { l with width := 0 })
  else
    let rw := decodeRune l.suffix
    if rw.1 = RuneError ∧ rw.2 = 1 then
      (rw, { l with last := rw.1, width := rw.2 })
    else
      (rw, { l with last := rw.1, width := rw.2, pos := l.pos + rw.2 })

/-- Model of `Lexer.Backup`: `l.pos -= l.width`. -/
def Lexer.Backup (l : Lexer) : Lexer :=
  { l with pos := l.pos - l.width }

/-- Model of `Lexer.Peek`: `Advance` with a deferred `Backup`; the returned
rune/width are those of the `Advance`. -/
def Lexer.Peek (l : Lexer) : (Int × Int) × Lexer :=
  let al := l.Advance
  (al.1, al.2.Backup)

/-- Model of `Lexer.Ignore`: `l.start = l.pos`. -/
def Lexer.Ignore (l : Lexer) : Lexer :=
  { l with start := l.pos }

/-- Model of `Lexer.Accept`.  The Go `valid string` argument is modelled as
the list of runes it contains: `strings.IndexRune(valid, r) >= 0` becomes
list membership. -/
def Lexer.Accept (l : Lexer) (valid : List Int) : Bool × Lexer :=
  let al := l.Advance
  if valid.contains al.1.1 then (true, al.2) else (false, al.2.Backup)

/-- Model of `Lexer.AcceptRange`.  The `*unicode.RangeTable` argument is
modelled as its membership predicate (`unicode.Is tab`). -/
def Lexer.AcceptRange (l : Lexer) (tab : Int → Bool) : Bool × Lexer :=
  let al := l.Advance
  if tab al.1.1 then (true, al.2) else (false, al.2.Backup)

/-- Model of `Lexer.AcceptRun`: repeat `Accept` while it succeeds, counting
successes.  The Go loop has no bound (it diverges if `Accept` keeps
succeeding without progress), so the model carries explicit fuel; every
finite prefix of the Go loop is some fuel instance. -/
def Lexer.AcceptRun (valid : List Int) : Nat → Lexer → Nat × Lexer
  | 0, l => (0, l)
  | fuel + 1, l =>
    let al := l.Accept valid
    if al.1 then
      let nl := Lexer.AcceptRun valid fuel al.2
      (nl.1 + 1, nl.2)
    else (0, al.2)

/-- Model of `Lexer.AcceptRunRange`, fuelled like `AcceptRun`. -/
def Lexer.AcceptRunRange (tab : Int → Bool) : Nat → Lexer → Nat × Lexer
  | 0, l => (0, l)
  | fuel + 1, l =>
    let al := l.AcceptRange tab
    if al.1 then
      let nl := Lexer.AcceptRunRange tab fuel al.2
      (nl.1 + 1, nl.2)
    else (0, al.2)

/-- Model of `Lexer.AcceptString`: if `s` is a byte prefix of
`l.input[l.pos:]` advance `pos` by `len(s)` and return true, else return
false unchanged. -/
def Lexer.AcceptString (l : Lexer) (s : List Nat) : Bool × Lexer :=
  if s.isPrefixOf l.suffix then (true, { l with pos := l.pos + s.length })
  else (false, l)

/-- Model of `Lexer.enqueue`: `l.items.PushBack(i)`. -/
def Lexer.enqueue (l : Lexer) (i : Item) : Lexer :=
  { l with items := l.items ++ [i] }

/-- Model of `Lexer.dequeue`: take the front of the queue if any. -/
def Lexer.dequeue (l : Lexer) : Option Item × Lexer :=
  match l.items with
  | [] => (none, l)
  | i :: rest => (some i, { l with items := rest })

/-- Model of `Lexer.Emit`: enqueue `{t, l.start, l.input[l.start:l.pos]}`
then set `start = pos`. -/
def Lexer.Emit (l : Lexer) (t : Nat) : Lexer :=
  { l.enqueue ⟨t, l.start, l.current⟩ with start := l.pos }

/-- Model of `Lexer.Errorf`: enqueue an `ItemError` whose value is the
formatted message (the formatted bytes are taken as given) and whose
position is `l.start`.  Its Go return value is the terminal `nil` state. -/
def Lexer.Errorf (l : Lexer) (msg : List Nat) : Lexer :=
  l.enqueue ⟨ItemError, l.start, msg⟩

/-- The driver part of Go's `Lexer`: the scan fields and queue together with
the defunctionalized `state StateFn` field (`none` models the terminal `nil`
state function). -/
structure Driver (σ : Type) where
  lx : Lexer
  state : Option σ
deriving DecidableEq, Repr

/-- Interpretation of the caller's state functions over an abstract state
space `σ`.  A Go `StateFn` receives the lexer, performs scanner operations
(read off from the returned `Lexer`'s scan fields), enqueues items only
through `Emit`/`Errorf` (the returned list, in call order), and returns the
next state function (`none` = terminal `nil`). -/
def StepFn (σ : Type) : Type :=
  σ → Lexer → Lexer × List Item × Option σ

/-- Run one state function from a driver state: the out items are appended at
the back of the queue, exactly as the `enqueue` calls inside the invocation
would do. -/
def Driver.runState {σ : Type} (step : StepFn σ) (d : Driver σ) (s : σ) :
    Driver σ :=
  let r := step s d.lx
  ⟨{ r.1 with items := d.lx.items ++ r.2.1 }, r.2.2⟩

/-- Model of `Lexer.Next` with explicit fuel bounding the number of state
transitions (the Go loop diverges when state functions never emit).  Returns
the delivered item tagged with its provenance (`true` = dequeued, `false` =
the synthesized `ItemEOF` for a terminal state), the items enqueued by the
state functions run during this call, and the final driver state; `none`
when fuel runs out mid-loop. -/
def Driver.NextT {σ : Type} (step : StepFn σ) :
    Nat → Driver σ → Option (Item × Bool) × List Item × Driver σ
  | 0, d => (none, [], d)
  | fuel + 1, d =>
    match d.lx.items with
    | i :: rest => (some (i, true), [], ⟨{ d.lx with items := rest }, d.state⟩)
    | [] =>
      match d.state with
      | none => (some (⟨ItemEOF, d.lx.start, []⟩, false), [], d)
      | some s =>
        let r := step s d.lx
        let rec2 := Driver.NextT step fuel ⟨{ r.1 with items := d.lx.items ++ r.2.1 }, r.2.2⟩
        (rec2.1, r.2.1 ++ rec2.2.1, rec2.2.2)

/-- Iterate `n` calls to `Next`, collecting delivered items (with provenance)
and all items enqueued along the way; stops early if a call exhausts fuel. -/
def Driver.runN {σ : Type} (step : StepFn σ) (fuel : Nat) :
    Nat → Driver σ → List (Item × Bool) × List Item × Driver σ
  | 0, d => ([], [], d)
  | n + 1, d =>
    match Driver.NextT step fuel d with
    | (none, prod, d1) => ([], prod, d1)
    | (some ib, prod, d1) =>
      let r := Driver.runN step fuel n d1
      (ib :: r.1, prod ++ r.2.1, r.2.2)

/-- Keep the items that were delivered from the queue (as opposed to the
synthesized terminal `ItemEOF` items). -/
def deliveredFromQueue (deliv : List (Item × Bool)) : List Item :=
  deliv.filterMap fun ib => if ib.2 then some ib.1 else none

/-- Model of `New`: panics on a `nil` start state (modelled as `none`),
otherwise builds the lexer with the given input, zeroed offsets, an empty
queue, and the given state. -/
def New (σ : Type) (start : Option σ) (input : List Nat) : Option (Driver σ) :=
  match start with
  | none => none
  | some s => some ⟨newLexer input, some s⟩

/-- The public cursor/driver operations a caller or state function can invoke,
for stating reachability of lexer states.  Return values are discarded;
fuel arguments bound the run loops as in `AcceptRun`. -/
inductive Op where
  | advance : Op
  | backup : Op
  | peek : Op
  | accept : List Int → Op
  | acceptRange : (Int → Bool) → Op
  | acceptRun : List Int → Nat → Op
  | acceptRunRange : (Int → Bool) → Nat → Op
  | acceptString : List Nat → Op
  | ignore : Op
  | emit : Nat → Op
  | errorf : List Nat → Op

/-- State effect of one public operation. -/
def applyOp (l : Lexer) : Op → Lexer
  | .advance => l.Advance.2
  | .backup => l.Backup
  | .peek => l.Peek.2
  | .accept v => (l.Accept v).2
  | .acceptRange t => (l.AcceptRange t).2
  | .acceptRun v f => (Lexer.AcceptRun v f l).2
  | .acceptRunRange t f => (Lexer.AcceptRunRange t f l).2
  | .acceptString s => (l.AcceptString s).2
  | .ignore => l.Ignore
  | .emit t => l.Emit t
  | .errorf m => l.Errorf m

/-- State reached after a sequence of public operations. -/
def applyOps (l : Lexer) (ops : List Op) : Lexer :=
  ops.foldl applyOp l

/-- The caller contract exactly as documented: `Backup` is never invoked
twice without an intervening `Advance`/`Peek`.  The flag records whether a
`Backup` has occurred with no `Advance`/`Peek` since. -/
def noDoubleBackupFrom : Bool → List Op → Bool
  | _, [] => true
  | armed, op :: rest =>
    match op with
    | .backup => if armed then false else noDoubleBackupFrom true rest
    | .advance => noDoubleBackupFrom false rest
    | .peek => noDoubleBackupFrom false rest
    | _ => noDoubleBackupFrom armed rest

/-- Caller contract from a fresh lexer (no pending `Backup`). -/
def noDoubleBackup (ops : List Op) : Bool :=
  noDoubleBackupFrom false ops

/-- The next bytes are a malformed UTF-8 encoding: decoding at `pos` (which
is inside the input) would take `Advance`'s invalid branch `(RuneError, 1)`. -/
def Lexer.badAt (l : Lexer) : Bool :=
  decide (l.pos < (l.input.length : Int)) &&
    decide (decodeRune l.suffix = (RuneError, 1))

/-- Per-step safety of a fuelled `AcceptRun` loop: no iteration decodes at a
malformed position. -/
def safeRun (valid : List Int) : Nat → Lexer → Bool
  | 0, _ => true
  | fuel + 1, l =>
    !l.badAt &&
      (let al := l.Accept valid
       if al.1 then safeRun valid fuel al.2 else true)

/-- Per-step safety of a fuelled `AcceptRunRange` loop. -/
def safeRunRange (tab : Int → Bool) : Nat → Lexer → Bool
  | 0, _ => true
  | fuel + 1, l =>
    !l.badAt &&
      (let al := l.AcceptRange tab
       if al.1 then safeRunRange tab fuel al.2 else true)

/-- Strengthened caller contract under which the position invariant holds:
decoding operations are not invoked at malformed positions, and `Backup` is
only invoked when the recorded width still lies inside the current lexeme
(`start + width ≤ pos`) — true exactly after an `Advance` that moved `pos`,
and false after `Peek`, after a failed `Accept`, after `Ignore`/`Emit`, and
after a prior `Backup`. -/
def allowedOp (l : Lexer) : Op → Bool
  | .advance => !l.badAt
  | .peek => !l.badAt
  | .accept _ => !l.badAt
  | .acceptRange _ => !l.badAt
  | .acceptRun v f => safeRun v f l
  | .acceptRunRange t f => safeRunRange t f l
  | .backup => decide (l.start + l.width ≤ l.pos)
  | .acceptString _ => true
  | .ignore => true
  | .emit _ => true
  | .errorf _ => true

/-- A whole operation sequence is safe from `l`: each operation is allowed in
the state where it executes. -/
def safeOps (l : Lexer) : List Op → Bool
  | [] => true
  | op :: rest => allowedOp l op && safeOps (applyOp l op) rest

/-- The position invariant of the spec, plus the auxiliary fact that the
recorded width is never negative. -/
def PosInv (l : Lexer) : Prop :=
  0 ≤ l.start ∧ l.start ≤ l.pos ∧ l.pos ≤ (l.input.length : Int) ∧ 0 ≤ l.width

/-- Results and final state of `n` consecutive `Advance` calls. -/
def advanceIter : Nat → Lexer → List (Int × Int) × Lexer
  | 0, l => ([], l)
  | n + 1, l =>
    let al := l.Advance
    let r := advanceIter n al.2
    (al.1 :: r.1, r.2)

/-- Results and final state of `n` consecutive `Peek` calls. -/
def peekIter : Nat → Lexer → List (Int × Int) × Lexer
  | 0, l => ([], l)
  | n + 1, l =>
    let pl := l.Peek
    let r := peekIter n pl.2
    (pl.1 :: r.1, r.2)

/-- The queue contribution of one `Next` result: the item if it was dequeued,
nothing if it was the synthesized terminal `ItemEOF` or fuel ran out. -/
def delivOpt : Option (Item × Bool) → List Item
  | none => []
  | some (i, true) => [i]
  | some (_, false) => []

theorem decodeRune_width_pos (b0 : Nat) (rest : List Nat) :
    1 ≤ (decodeRune (b0 :: rest)).2 := by
  rcases rest with _ | ⟨b1, _ | ⟨b2, _ | ⟨b3, rest4⟩⟩⟩ <;>
    simp only [decodeRune] <;> split_ifs <;> norm_num

theorem decodeRune_width_le (b0 : Nat) (rest : List Nat) :
    decodeRune (b0 :: rest) = (RuneError, 1) ∨
      (decodeRune (b0 :: rest)).2 ≤ ((b0 :: rest).length : Int) := by
  rcases rest with _ | ⟨b1, _ | ⟨b2, _ | ⟨b3, rest4⟩⟩⟩ <;>
    simp only [decodeRune, List.length] <;> split_ifs <;>
      simp <;> omega

theorem decodeRune_width_pos_of_ne (s : List Nat) (h : s ≠ []) :
    1 ≤ (decodeRune s).2 := by
  cases s with
  | nil => exact absurd rfl h
  | cons b0 rest => exact decodeRune_width_pos b0 rest

theorem decodeRune_width_le_of_ne (s : List Nat) (h : s ≠ []) :
    decodeRune s = (RuneError, 1) ∨ (decodeRune s).2 ≤ (s.length : Int) := by
  cases s with
  | nil => exact absurd rfl h
  | cons b0 rest => exact decodeRune_width_le b0 rest

theorem isPrefixOf_exists (s t : List Nat) :
    s.isPrefixOf t = true ↔ ∃ rest, t = s ++ rest := by
  induction s generalizing t with
  | nil => simp [List.isPrefixOf]
  | cons a s ih =>
    cases t with
    | nil => simp [List.isPrefixOf]
    | cons b t =>
      simp only [List.isPrefixOf, Bool.and_eq_true, beq_iff_eq, ih,
        List.cons_append, List.cons.injEq]
      constructor
      · rintro ⟨rfl, rest, rfl⟩; exact ⟨rest, rfl, rfl⟩
      · rintro ⟨rest, rfl, rfl⟩; exact ⟨rfl, rest, rfl⟩

theorem suffix_length (l : Lexer) (h0 : 0 ≤ l.pos)
    (h1 : l.pos < (l.input.length : Int)) :
    (l.suffix.length : Int) = (l.input.length : Int) - l.pos := by
  simp only [Lexer.suffix, List.length_drop]
  omega

theorem suffix_ne_nil (l : Lexer) (h0 : 0 ≤ l.pos)
    (h1 : l.pos < (l.input.length : Int)) : l.suffix ≠ [] := by
  intro h
  have := suffix_length l h0 h1
  rw [h] at this
  simp at this
  omega

theorem badAt_false_iff (l : Lexer) :
    l.badAt = false ↔
      ¬(l.pos < (l.input.length : Int)) ∨ decodeRune l.suffix ≠ (RuneError, 1) := by
  simp [Lexer.badAt, Decidable.imp_iff_not_or]

theorem advance_cases (l : Lexer) (hs : l.badAt = false) :
    ((l.input.length : Int) ≤ l.pos ∧ l.Advance = ((EOF, 0), { l with width := 0 })) ∨
    (l.pos < (l.input.length : Int) ∧ decodeRune l.suffix ≠ (RuneError, 1) ∧
      l.Advance = (decodeRune l.suffix,
        { l with last := (decodeRune l.suffix).1,
                 width := (decodeRune l.suffix).2,
                 pos := l.pos + (decodeRune l.suffix).2 })) := by
  by_cases he : (l.input.length : Int) ≤ l.pos
  · left
    exact ⟨he, by simp [Lexer.Advance, he]⟩
  · right
    push_neg at he
    have hne : decodeRune l.suffix ≠ (RuneError, 1) := by
      rcases (badAt_false_iff l).mp hs with h | h
      · exact absurd he h
      · exact h
    refine ⟨he, hne, ?_⟩
    have hif : ¬((l.input.length : Int) ≤ l.pos) := not_le.mpr he
    have hand : ¬((decodeRune l.suffix).1 = RuneError ∧ (decodeRune l.suffix).2 = 1) := by
      intro hc
      exact hne (Prod.ext hc.1 hc.2)
    simp only [Lexer.Advance, if_neg hif, if_neg hand]

theorem posInv_advance_backup (l : Lexer) (h : PosInv l) (hs : l.badAt = false) :
    PosInv l.Advance.2 ∧ PosInv l.Advance.2.Backup ∧
      l.Advance.2.Backup.pos = l.pos := by
  obtain ⟨h1, h2, h3, h4⟩ := h
  rcases advance_cases l hs with ⟨he, heq⟩ | ⟨he, hne, heq⟩
  · rw [heq]
    refine ⟨⟨h1, h2, h3, le_refl 0⟩, ?_, ?_⟩ <;>
      simp [Lexer.Backup, PosInv] <;> omega
  · have hnn : l.suffix ≠ [] := suffix_ne_nil l (le_trans h1 h2) he
    have hw1 : 1 ≤ (decodeRune l.suffix).2 := decodeRune_width_pos_of_ne _ hnn
    have hwle : (decodeRune l.suffix).2 ≤ (l.suffix.length : Int) := by
      rcases decodeRune_width_le_of_ne _ hnn with hc | hc
      · exact absurd hc hne
      · exact hc
    have hsl : (l.suffix.length : Int) = (l.input.length : Int) - l.pos :=
      suffix_length l (le_trans h1 h2) he
    rw [heq]
    refine ⟨?_, ?_, ?_⟩ <;> simp [Lexer.Backup, PosInv] <;> omega

theorem accept_state (l : Lexer) (valid : List Int) :
    (l.Accept valid).2 = l.Advance.2 ∨ (l.Accept valid).2 = l.Advance.2.Backup := by
  by_cases hm : l.Advance.1.1 ∈ valid
  · left; simp [Lexer.Accept, hm]
  · right; simp [Lexer.Accept, hm]

theorem acceptRange_state (l : Lexer) (tab : Int → Bool) :
    (l.AcceptRange tab).2 = l.Advance.2 ∨
      (l.AcceptRange tab).2 = l.Advance.2.Backup := by
  unfold Lexer.AcceptRange
  by_cases hc : tab l.Advance.1.1
  · left; simp [hc]
  · right; simp [hc]

theorem posInv_accept (l : Lexer) (valid : List Int) (h : PosInv l)
    (hs : l.badAt = false) : PosInv (l.Accept valid).2 := by
  rcases accept_state l valid with heq | heq <;> rw [heq]
  · exact (posInv_advance_backup l h hs).1
  · exact (posInv_advance_backup l h hs).2.1

theorem posInv_acceptRange (l : Lexer) (tab : Int → Bool) (h : PosInv l)
    (hs : l.badAt = false) : PosInv (l.AcceptRange tab).2 := by
  rcases acceptRange_state l tab with heq | heq <;> rw [heq]
  · exact (posInv_advance_backup l h hs).1
  · exact (posInv_advance_backup l h hs).2.1

theorem posInv_acceptRun (valid : List Int) :
    ∀ (fuel : Nat) (l : Lexer), PosInv l → safeRun valid fuel l = true →
      PosInv (Lexer.AcceptRun valid fuel l).2
  | 0, l, h, _ => h
  | fuel + 1, l, h, hs => by
    simp only [safeRun, Bool.and_eq_true, Bool.not_eq_true'] at hs
    obtain ⟨hbad, hrest⟩ := hs
    have hacc : PosInv (l.Accept valid).2 := posInv_accept l valid h hbad
    unfold Lexer.AcceptRun
    by_cases hok : (l.Accept valid).1
    · simp only [hok, if_true] at hrest ⊢
      exact posInv_acceptRun valid fuel _ hacc hrest
    · simp only [Bool.not_eq_true] at hok
      simp only [hok, Bool.false_eq_true, if_false]
      exact hacc

theorem posInv_acceptRunRange (tab : Int → Bool) :
    ∀ (fuel : Nat) (l : Lexer), PosInv l → safeRunRange tab fuel l = true →
      PosInv (Lexer.AcceptRunRange tab fuel l).2
  | 0, l, h, _ => h
  | fuel + 1, l, h, hs => by
    simp only [safeRunRange, Bool.and_eq_true, Bool.not_eq_true'] at hs
    obtain ⟨hbad, hrest⟩ := hs
    have hacc : PosInv (l.AcceptRange tab).2 := posInv_acceptRange l tab h hbad
    unfold Lexer.AcceptRunRange
    by_cases hok : (l.AcceptRange tab).1
    · simp only [hok, if_true] at hrest ⊢
      exact posInv_acceptRunRange tab fuel _ hacc hrest
    · simp only [Bool.not_eq_true] at hok
      simp only [hok, Bool.false_eq_true, if_false]
      exact hacc

theorem posInv_acceptString (l : Lexer) (s : List Nat) (h : PosInv l) :
    PosInv (l.AcceptString s).2 := by
  obtain ⟨h1, h2, h3, h4⟩ := h
  unfold Lexer.AcceptString
  by_cases hp : s.isPrefixOf l.suffix
  · obtain ⟨rest, hrest⟩ := (isPrefixOf_exists s l.suffix).mp hp
    have hlen : (s.length : Int) ≤ (l.suffix.length : Int) := by
      rw [hrest]
      simp
    have hsl : (l.suffix.length : Int) ≤ (l.input.length : Int) - l.pos := by
      simp only [Lexer.suffix, List.length_drop]
      omega
    simp only [hp, if_true]
    simp only [PosInv]
    omega
  · simp only [hp, if_false]
    exact ⟨h1, h2, h3, h4⟩

theorem posInv_applyOp (l : Lexer) (op : Op) (h : PosInv l)
    (hs : allowedOp l op = true) : PosInv (applyOp l op) := by
  obtain ⟨h1, h2, h3, h4⟩ := h
  cases op with
  | advance =>
    simp only [allowedOp, Bool.not_eq_true'] at hs
    exact (posInv_advance_backup l ⟨h1, h2, h3, h4⟩ hs).1
  | backup =>
    simp only [allowedOp, decide_eq_true_eq] at hs
    simp only [applyOp, Lexer.Backup, PosInv]
    exact ⟨h1, by omega, by omega, h4⟩
  | peek =>
    simp only [allowedOp, Bool.not_eq_true'] at hs
    simp only [applyOp, Lexer.Peek]
    exact (posInv_advance_backup l ⟨h1, h2, h3, h4⟩ hs).2.1
  | accept v =>
    simp only [allowedOp, Bool.not_eq_true'] at hs
    exact posInv_accept l v ⟨h1, h2, h3, h4⟩ hs
  | acceptRange t =>
    simp only [allowedOp, Bool.not_eq_true'] at hs
    exact posInv_acceptRange l t ⟨h1, h2, h3, h4⟩ hs
  | acceptRun v f =>
    simp only [allowedOp] at hs
    exact posInv_acceptRun v f l ⟨h1, h2, h3, h4⟩ hs
  | acceptRunRange t f =>
    simp only [allowedOp] at hs
    exact posInv_acceptRunRange t f l ⟨h1, h2, h3, h4⟩ hs
  | acceptString s =>
    exact posInv_acceptString l s ⟨h1, h2, h3, h4⟩
  | ignore =>
    simp only [applyOp, Lexer.Ignore, PosInv]
    exact ⟨by omega, by omega, h3, h4⟩
  | emit t =>
    simp only [applyOp, Lexer.Emit, Lexer.enqueue, PosInv]
    exact ⟨by omega, by omega, h3, h4⟩
  | errorf m =>
    simp only [applyOp, Lexer.Errorf, Lexer.enqueue, PosInv]
    exact ⟨h1, h2, h3, h4⟩

theorem posInv_applyOps :
    ∀ (ops : List Op) (l : Lexer), PosInv l → safeOps l ops = true →
      PosInv (applyOps l ops)
  | [], l, h, _ => h
  | op :: rest, l, h, hs => by
    simp only [safeOps, Bool.and_eq_true] at hs
    have h1 : PosInv (applyOp l op) := posInv_applyOp l op h hs.1
    simpa only [applyOps, List.foldl_cons] using
      posInv_applyOps rest (applyOp l op) h1 hs.2

theorem badAt_congr (l l' : Lexer) (hi : l'.input = l.input) (hp : l'.pos = l.pos) :
    l'.badAt = l.badAt := by
  simp [Lexer.badAt, Lexer.suffix, hi, hp]

theorem advance_fst_congr (l l' : Lexer) (hi : l'.input = l.input)
    (hp : l'.pos = l.pos) : l'.Advance.1 = l.Advance.1 := by
  unfold Lexer.Advance Lexer.suffix
  rw [hi, hp]
  split_ifs with h
  · rfl
  · by_cases hc : (decodeRune (List.drop l.pos.toNat l.input)).1 = RuneError ∧
        (decodeRune (List.drop l.pos.toNat l.input)).2 = 1
    · simp only [if_pos hc]
    · simp only [if_neg hc]

theorem advanceIter_malformed :
    ∀ (n : Nat) (l : Lexer), l.badAt = true →
      (advanceIter n l).1 = List.replicate n (RuneError, 1) ∧
        (advanceIter n l).2.pos = l.pos
  | 0, l, _ => ⟨rfl, rfl⟩
  | n + 1, l, hbad => by
    have hb := hbad
    simp only [Lexer.badAt, Bool.and_eq_true, decide_eq_true_eq] at hb
    obtain ⟨hlt, hdec⟩ := hb
    have hadv : l.Advance = ((RuneError, 1), { l with last := RuneError, width := 1 }) := by
      unfold Lexer.Advance
      rw [if_neg (not_le.mpr hlt)]
      simp only [hdec]
      simp
    have hbad2 : Lexer.badAt { l with last := RuneError, width := 1 } = true := by
      have hcg := badAt_congr l { l with last := RuneError, width := 1 } rfl rfl
      rw [hcg]
      exact hbad
    have ih := advanceIter_malformed n { l with last := RuneError, width := 1 } hbad2
    simp only [advanceIter, hadv, List.replicate]
    exact ⟨by rw [ih.1], by rw [ih.2]⟩

/-- C2: at a malformed UTF-8 position inside the input, `Advance` returns
`(RuneError, 1)` without moving `pos`, and any number of consecutive
`Advance` calls all return `(RuneError, 1)` and leave `pos` where it was. -/
theorem C2_malformed_advance (l : Lexer) (n : Nat) (_h0 : 0 ≤ l.pos)
    (hbad : l.badAt = true) :
    l.Advance = ((RuneError, 1), { l with last := RuneError, width := 1 }) ∧
      (advanceIter n l).1 = List.replicate n (RuneError, 1) ∧
      (advanceIter n l).2.pos = l.pos := by
  have hb := hbad
  simp only [Lexer.badAt, Bool.and_eq_true, decide_eq_true_eq] at hb
  obtain ⟨hlt, hdec⟩ := hb
  refine ⟨?_, (advanceIter_malformed n l hbad).1, (advanceIter_malformed n l hbad).2⟩
  unfold Lexer.Advance
  rw [if_neg (not_le.mpr hlt)]
  simp only [hdec]
  simp

/-- Witness for C2 at the concrete malformed input `[0xFF]` with three
consecutive `Advance` calls. -/
theorem C2_witness :
    0 ≤ (newLexer [0xFF]).pos ∧ (newLexer [0xFF]).badAt = true ∧
      ((newLexer [0xFF]).Advance =
          ((RuneError, 1), { newLexer [0xFF] with last := RuneError, width := 1 }) ∧
        (advanceIter 3 (newLexer [0xFF])).1 = List.replicate 3 (RuneError, 1) ∧
        (advanceIter 3 (newLexer [0xFF])).2.pos = (newLexer [0xFF]).pos) :=
  ⟨by decide, by decide, C2_malformed_advance (newLexer [0xFF]) 3 (by decide) (by decide)⟩

/-- C1 as stated is false: the operation sequence `Advance; Ignore; Backup`
on input `"a"` obeys the documented caller contract (`Backup` is called only
once, immediately preceded by `Ignore`, with an `Advance` earlier), yet it
leaves the cursor with `start = 1 > pos = 0`. -/
theorem C1_counterexample :
    noDoubleBackup [Op.advance, Op.ignore, Op.backup] = true ∧
      ¬((applyOps (newLexer [0x61]) [Op.advance, Op.ignore, Op.backup]).start ≤
          (applyOps (newLexer [0x61]) [Op.advance, Op.ignore, Op.backup]).pos) := by
  decide

/-- C1 (amended): the position invariant `0 ≤ start ≤ pos ≤ len(input)`
holds for every cursor state reachable from a fresh lexer by public
operations, under the strengthened caller contract `safeOps`: no decoding
operation is invoked at a malformed UTF-8 position, and `Backup` is invoked
only while the recorded width still lies inside the current lexeme
(`start + width ≤ pos`), i.e. only immediately after an `Advance` that moved
`pos` — not twice in a row, and not after `Peek`, a failed `Accept`,
`Ignore`, or `Emit`. -/
theorem C1_position_invariant (input : List Nat) (ops : List Op)
    (h : safeOps (newLexer input) ops = true) :
    0 ≤ (applyOps (newLexer input) ops).start ∧
      (applyOps (newLexer input) ops).start ≤ (applyOps (newLexer input) ops).pos ∧
      (applyOps (newLexer input) ops).pos ≤
        (((applyOps (newLexer input) ops).input.length : Int)) := by
  have h0 : PosInv (newLexer input) := by
    simp [PosInv, newLexer]
  have hres := posInv_applyOps ops (newLexer input) h0 h
  exact ⟨hres.1, hres.2.1, hres.2.2.1⟩

/-- Witness for the amended C1 on input `"ab"` with the operation sequence
`Advance; Backup; Advance; Ignore; AcceptString "b"; Emit`. -/
theorem C1_witness :
    safeOps (newLexer [0x61, 0x62])
        [Op.advance, Op.backup, Op.advance, Op.ignore,
          Op.acceptString [0x62], Op.emit 0] = true ∧
      (0 ≤ (applyOps (newLexer [0x61, 0x62])
          [Op.advance, Op.backup, Op.advance, Op.ignore,
            Op.acceptString [0x62], Op.emit 0]).start ∧
        (applyOps (newLexer [0x61, 0x62])
          [Op.advance, Op.backup, Op.advance, Op.ignore,
            Op.acceptString [0x62], Op.emit 0]).start ≤
          (applyOps (newLexer [0x61, 0x62])
            [Op.advance, Op.backup, Op.advance, Op.ignore,
              Op.acceptString [0x62], Op.emit 0]).pos ∧
        (applyOps (newLexer [0x61, 0x62])
          [Op.advance, Op.backup, Op.advance, Op.ignore,
            Op.acceptString [0x62], Op.emit 0]).pos ≤
          (((applyOps (newLexer [0x61, 0x62])
            [Op.advance, Op.backup, Op.advance, Op.ignore,
              Op.acceptString [0x62], Op.emit 0]).input.length : Int))) :=
  ⟨by decide, C1_position_invariant [0x61, 0x62]
    [Op.advance, Op.backup, Op.advance, Op.ignore,
      Op.acceptString [0x62], Op.emit 0] (by decide)⟩

theorem peek_of_not_bad (l : Lexer) (hs : l.badAt = false) :
    l.Peek.2.pos = l.pos ∧ l.Peek.2.input = l.input := by
  rcases advance_cases l hs with ⟨he, heq⟩ | ⟨he, hne, heq⟩ <;>
    constructor <;> simp [Lexer.Peek, heq, Lexer.Backup]

theorem peekIter_stable :
    ∀ (n : Nat) (l : Lexer), l.badAt = false →
      (peekIter n l).1 = List.replicate n l.Peek.1 ∧
        (peekIter n l).2.pos = l.pos ∧ (peekIter n l).2.input = l.input
  | 0, l, _ => ⟨rfl, rfl, rfl⟩
  | n + 1, l, hs => by
    have hpk := peek_of_not_bad l hs
    have hbad2 : l.Peek.2.badAt = false := by
      rw [badAt_congr l l.Peek.2 hpk.2 hpk.1]
      exact hs
    have ih := peekIter_stable n l.Peek.2 hbad2
    have hfst : l.Peek.2.Peek.1 = l.Peek.1 :=
      advance_fst_congr l l.Peek.2 hpk.2 hpk.1
    refine ⟨?_, ?_, ?_⟩
    · simp only [peekIter, List.replicate]
      rw [ih.1, hfst]
    · simp only [peekIter]
      rw [ih.2.1, hpk.1]
    · simp only [peekIter]
      rw [ih.2.2, hpk.2]

/-- C3 is false as stated: a single `Peek` at a malformed UTF-8 position
(input `[0xFF]`, `pos = 0`) changes `pos` — its internal `Backup` subtracts
the width 1 recorded by the failed decode even though `Advance` did not move,
leaving `pos = -1`. -/
theorem C3_counterexample :
    ((newLexer [0xFF]).Peek).2.pos ≠ (newLexer [0xFF]).pos := by
  decide

/-- C3 (amended): at any position where the remaining input does not start
with a malformed UTF-8 encoding, consecutive `Peek` calls all return the
same rune/width and leave `pos` unchanged (after each call `pos` equals its
original value). -/
theorem C3_peek_idempotent (l : Lexer) (n : Nat) (_h0 : 0 ≤ l.pos)
    (hs : l.badAt = false) :
    (peekIter n l).1 = List.replicate n l.Peek.1 ∧
      (peekIter n l).2.pos = l.pos :=
  ⟨(peekIter_stable n l hs).1, (peekIter_stable n l hs).2.1⟩

/-- Witness for the amended C3: three `Peek` calls on input `"ab"`. -/
theorem C3_witness :
    0 ≤ (newLexer [0x61, 0x62]).pos ∧ (newLexer [0x61, 0x62]).badAt = false ∧
      ((peekIter 3 (newLexer [0x61, 0x62])).1 =
          List.replicate 3 ((newLexer [0x61, 0x62]).Peek).1 ∧
        (peekIter 3 (newLexer [0x61, 0x62])).2.pos = (newLexer [0x61, 0x62]).pos) :=
  ⟨by decide, by decide,
    C3_peek_idempotent (newLexer [0x61, 0x62]) 3 (by decide) (by decide)⟩

/-- C6: at end of input (`pos ≥ len(input)`) `Advance` returns `(EOF, 0)`,
leaves `pos` unchanged and records a last-rune width of 0, so an immediately
following `Backup` leaves the state (in particular `pos`) unchanged. -/
theorem C6_advance_eof (l : Lexer) (h : (l.input.length : Int) ≤ l.pos) :
    l.Advance = ((EOF, 0), { l with width := 0 }) ∧
      l.Advance.2.Backup = { l with width := 0 } := by
  have ha : l.Advance = ((EOF, 0), { l with width := 0 }) := by
    simp [Lexer.Advance, h]
  refine ⟨ha, ?_⟩
  rw [ha]
  simp [Lexer.Backup]

/-- Witness for C6 on the empty input. -/
theorem C6_witness :
    ((newLexer []).input.length : Int) ≤ (newLexer []).pos ∧
      ((newLexer []).Advance = ((EOF, 0), { newLexer [] with width := 0 }) ∧
        (newLexer []).Advance.2.Backup = { newLexer [] with width := 0 }) :=
  ⟨by decide, C6_advance_eof (newLexer []) (by decide)⟩

/-- C7: `AcceptString s` returns true and advances `pos` by exactly `len s`
bytes iff `s` is a byte-exact prefix of the remaining input, and otherwise
returns false leaving the state unchanged; in particular `"func"` succeeds
over `"function"` (advancing `pos` by 4) and over `"func"` (advancing to the
end), and fails over `"fun"` leaving `pos` unchanged. -/
theorem C7_acceptString :
    (∀ (s : List Nat) (l : Lexer),
      ((∃ rest, l.suffix = s ++ rest) →
          l.AcceptString s = (true, { l with pos := l.pos + s.length })) ∧
      ((∀ rest, l.suffix ≠ s ++ rest) → l.AcceptString s = (false, l))) ∧
    (newLexer [0x66, 0x75, 0x6E, 0x63, 0x74, 0x69, 0x6F, 0x6E]).AcceptString
        [0x66, 0x75, 0x6E, 0x63] =
      (true,
        { newLexer [0x66, 0x75, 0x6E, 0x63, 0x74, 0x69, 0x6F, 0x6E] with pos := 4 }) ∧
    (newLexer [0x66, 0x75, 0x6E, 0x63]).AcceptString [0x66, 0x75, 0x6E, 0x63] =
      (true, { newLexer [0x66, 0x75, 0x6E, 0x63] with pos := 4 }) ∧
    (newLexer [0x66, 0x75, 0x6E]).AcceptString [0x66, 0x75, 0x6E, 0x63] =
      (false, newLexer [0x66, 0x75, 0x6E]) := by
  refine ⟨fun s l => ⟨?_, ?_⟩, by decide, by decide, by decide⟩
  · rintro ⟨rest, hrest⟩
    have hp : s.isPrefixOf l.suffix = true :=
      (isPrefixOf_exists s l.suffix).mpr ⟨rest, hrest⟩
    simp [Lexer.AcceptString, hp]
  · intro hn
    cases hp : s.isPrefixOf l.suffix
    · simp [Lexer.AcceptString, hp]
    · obtain ⟨rest, hrest⟩ := (isPrefixOf_exists s l.suffix).mp hp
      exact absurd hrest (hn rest)

/-- Witness for C7: `AcceptString "a"` over input `"a"`. -/
theorem C7_witness :
    (newLexer [0x61]).AcceptString [0x61] =
      (true, { newLexer [0x61] with
        pos := (newLexer [0x61]).pos + (([0x61] : List Nat).length : Int) }) :=
  (C7_acceptString.1 [0x61] (newLexer [0x61])).1 ⟨[], rfl⟩

/-- C9 is false as stated: the sentinel `EOF = 0x04` is a valid Unicode
codepoint, and decoding the input byte 0x04 yields exactly the sentinel
value (as a width-1 rune of actual input text). -/
theorem C9_counterexample :
    (newLexer [0x04]).Advance.1 = (EOF, 1) ∧ 0 ≤ EOF ∧ EOF ≤ 0x10FFFF := by
  decide

/-- C9 (amended): the sentinel `EOF` is 0x04, which lies inside the valid
Unicode codepoint range and can equal decoded input text; the end-of-input
return `(EOF, 0)` is distinguished from any decoded rune by its width 0,
since `Advance` from a position inside the input always reports width ≥ 1. -/
theorem C9_eof_sentinel :
    EOF = 0x04 ∧ 0 ≤ EOF ∧ EOF ≤ 0x10FFFF ∧
      (∀ l : Lexer, (l.input.length : Int) ≤ l.pos → l.Advance.1 = (EOF, 0)) ∧
      (∀ l : Lexer, 0 ≤ l.pos → l.pos < (l.input.length : Int) →
        1 ≤ l.Advance.1.2) := by
  refine ⟨rfl, by decide, by decide, ?_, ?_⟩
  · intro l h
    simp [Lexer.Advance, h]
  · intro l h0 h1
    have hnn : l.suffix ≠ [] := suffix_ne_nil l h0 h1
    have hw := decodeRune_width_pos_of_ne l.suffix hnn
    unfold Lexer.Advance
    rw [if_neg (not_le.mpr h1)]
    by_cases hc : (decodeRune l.suffix).1 = RuneError ∧ (decodeRune l.suffix).2 = 1
    · simp only [if_pos hc]
      simpa using hw
    · simp only [if_neg hc]
      simpa using hw

/-- Witness for the amended C9: end of input on `""`, inside input on `"A"`. -/
theorem C9_witness :
    (((newLexer []).input.length : Int) ≤ (newLexer []).pos ∧
        (newLexer []).Advance.1 = (EOF, 0)) ∧
      (0 ≤ (newLexer [0x41]).pos ∧
        (newLexer [0x41]).pos < ((newLexer [0x41]).input.length : Int) ∧
        1 ≤ (newLexer [0x41]).Advance.1.2) :=
  ⟨⟨by decide, C9_eof_sentinel.2.2.2.1 (newLexer []) (by decide)⟩,
    ⟨by decide, by decide,
      C9_eof_sentinel.2.2.2.2 (newLexer [0x41]) (by decide) (by decide)⟩⟩

/-- C10: `AcceptString` modifies only `pos`: `start`, `width`, `last` (and
the input and queue) are unchanged whether it succeeds or fails, and a
`Backup` immediately after it rewinds `pos` by the previously recorded
width, not by `len s`; concretely, after `Advance` (width 1) over
`"func"` and a successful `AcceptString "unc"` (length 3), `Backup` moves
`pos` from 4 to 3, not to 1. -/
theorem C10_acceptString_frame :
    (∀ (l : Lexer) (s : List Nat),
      (l.AcceptString s).2.start = l.start ∧
        (l.AcceptString s).2.width = l.width ∧
        (l.AcceptString s).2.last = l.last ∧
        (l.AcceptString s).2.input = l.input ∧
        (l.AcceptString s).2.items = l.items ∧
        (l.AcceptString s).2.Backup.pos = (l.AcceptString s).2.pos - l.width) ∧
      ((((newLexer [0x66, 0x75, 0x6E, 0x63]).Advance.2).AcceptString
            [0x75, 0x6E, 0x63]).2.Backup.pos = 3 ∧
        (((newLexer [0x66, 0x75, 0x6E, 0x63]).Advance.2).AcceptString
            [0x75, 0x6E, 0x63]).2.Backup.pos ≠
          (((newLexer [0x66, 0x75, 0x6E, 0x63]).Advance.2).AcceptString
            [0x75, 0x6E, 0x63]).2.pos - (([0x75, 0x6E, 0x63] : List Nat).length : Int)) := by
  refine ⟨fun l s => ?_, by decide, by decide⟩
  unfold Lexer.AcceptString
  split_ifs <;> simp [Lexer.Backup]

/-- C8: the constructor `New` fails fatally (Go panics, modelled as `none`)
exactly when the initial state function is nil, and otherwise returns a
driver whose lexer has `start = 0`, `pos = 0`, the given input, an empty
token queue, and the given state function as its current state. -/
theorem C8_new_constructor (σ : Type) (s : σ) (input : List Nat) :
    New σ none input = none ∧
      ∃ d : Driver σ, New σ (some s) input = some d ∧
        d.lx.start = 0 ∧ d.lx.pos = 0 ∧ d.lx.width = 0 ∧
        d.lx.input = input ∧ d.lx.items = [] ∧ d.state = some s := by
  exact ⟨rfl, ⟨⟨newLexer input, some s⟩, rfl, rfl, rfl, rfl, rfl, rfl, rfl⟩⟩

theorem deliveredFromQueue_cons (ib : Item × Bool) (rest : List (Item × Bool)) :
    deliveredFromQueue (ib :: rest) = delivOpt (some ib) ++ deliveredFromQueue rest := by
  cases ib with
  | mk i b => cases b <;> simp [deliveredFromQueue, delivOpt]

theorem nextT_fifo {σ : Type} (step : StepFn σ) :
    ∀ (fuel : Nat) (d : Driver σ),
      delivOpt (Driver.NextT step fuel d).1 ++ (Driver.NextT step fuel d).2.2.lx.items =
        d.lx.items ++ (Driver.NextT step fuel d).2.1
  | 0, d => by simp [Driver.NextT, delivOpt]
  | fuel + 1, ⟨⟨inp, st, pos, w, la, items⟩, state⟩ => by
    cases items with
    | cons i rest => simp [Driver.NextT, delivOpt]
    | nil =>
      cases state with
      | none => simp [Driver.NextT, delivOpt]
      | some s =>
        have ih := nextT_fifo step fuel
          ⟨{ (step s ⟨inp, st, pos, w, la, []⟩).1 with
              items := ([] : List Item) ++ (step s ⟨inp, st, pos, w, la, []⟩).2.1 },
            (step s ⟨inp, st, pos, w, la, []⟩).2.2⟩
        simp only [Driver.NextT, List.nil_append] at ih ⊢
        simpa using ih

theorem runN_fifo {σ : Type} (step : StepFn σ) (fuel : Nat) :
    ∀ (n : Nat) (d : Driver σ),
      deliveredFromQueue (Driver.runN step fuel n d).1 ++
          (Driver.runN step fuel n d).2.2.lx.items =
        d.lx.items ++ (Driver.runN step fuel n d).2.1
  | 0, d => by simp [Driver.runN, deliveredFromQueue]
  | n + 1, d => by
    have h1 := nextT_fifo step fuel d
    rcases hnx : Driver.NextT step fuel d with ⟨r1, prod, d1⟩
    rw [hnx] at h1
    cases r1 with
    | none =>
      simp only [delivOpt, List.nil_append] at h1
      simp only [Driver.runN, hnx]
      simpa [deliveredFromQueue] using h1
    | some ib =>
      have ih := runN_fifo step fuel n d1
      simp only [Driver.runN, hnx]
      simp only [deliveredFromQueue_cons]
      rw [List.append_assoc, ih, ← List.append_assoc, h1, List.append_assoc]

/-- C4: token delivery is strict FIFO.  Over any driver run (`n` calls to
`Next`, each bounded by `fuel` state transitions), the tokens `Next`
delivered from the queue, in delivery order, followed by the tokens still
queued at the end, equal the initially queued tokens followed by all tokens
enqueued by `Emit`/`Errorf` during the run, in enqueue order — so dequeued
tokens come out exactly in the order their `Emit`/`Errorf` calls occurred,
regardless of how many state transitions happen between deliveries. -/
theorem C4_fifo_order {σ : Type} (step : StepFn σ) (fuel : Nat) (n : Nat)
    (d : Driver σ) :
    deliveredFromQueue (Driver.runN step fuel n d).1 ++
        (Driver.runN step fuel n d).2.2.lx.items =
      d.lx.items ++ (Driver.runN step fuel n d).2.1 :=
  runN_fifo step fuel n d

theorem runN_terminal {σ : Type} (step : StepFn σ) (fuel : Nat) :
    ∀ (n : Nat) (l : Lexer),
      Driver.runN step (fuel + 1) n ⟨{ l with items := [] }, (none : Option σ)⟩ =
        (List.replicate n (⟨ItemEOF, l.start, []⟩, false), [],
          ⟨{ l with items := [] }, none⟩)
  | 0, l => by simp [Driver.runN]
  | n + 1, l => by
    have hnx : Driver.NextT step (fuel + 1) ⟨{ l with items := [] }, (none : Option σ)⟩ =
        (some (⟨ItemEOF, l.start, []⟩, false), [],
          ⟨{ l with items := [] }, none⟩) := by
      simp [Driver.NextT]
    have ih := runN_terminal step fuel n l
    simp [Driver.runN, hnx, ih, List.replicate]

/-- C5: terminal idempotence.  From a driver state with an empty queue and
the terminal (`nil`) state — exactly the state in which `Next` has just
returned an `EndOfInput` token — every further sequence of `Next` calls
returns the identical `ItemEOF` token positioned at the current `start`
(same kind, position constant hence non-decreasing), enqueues nothing (no
state function is invoked), and leaves the driver completely unchanged. -/
theorem C5_terminal_idempotent {σ : Type} (step : StepFn σ) (fuel : Nat)
    (n : Nat) (l : Lexer) :
    Driver.runN step (fuel + 1) n ⟨{ l with items := [] }, (none : Option σ)⟩ =
      (List.replicate n (⟨ItemEOF, l.start, []⟩, false), [],
        ⟨{ l with items := [] }, none⟩) :=
  runN_terminal step fuel n l

example : decodeRune [0x61] = (0x61, 1) := by decide
example : decodeRune [0xFF] = (RuneError, 1) := by decide
example : decodeRune [0xC3, 0xA9] = (0xE9, 2) := by decide
example : decodeRune [0xC3] = (RuneError, 1) := by decide
example : decodeRune [0xEF, 0xBF, 0xBD] = (RuneError, 3) := by decide
example : decodeRune [0xED, 0xA0, 0x80] = (RuneError, 1) := by decide
example : decodeRune [0xF0, 0x9F, 0x98, 0x80] = (0x1F600, 4) := by decide
